import Mathlib


/-!
Verification development for the Mixcloud show indexer
(`indexer/constants.py`, `indexer/fetcher.py`, `indexer/processor.py`,
`indexer/main.py`, `indexer/indexer_types.py`).

The Python data (JSON-shaped dictionaries) is embedded as an inductive
`Json` value type; Python dicts become association lists with string keys
(Python dicts preserve insertion order, and `dict.get`/`d[k]` become
`List.lookup`).  Python strings are Lean `String`s; the string operations
the indexer uses (`lower`, `strip`, `split`, substring search, `sorted`)
are re-implemented on `List Char` so that they compute in the kernel.
Lexicographic string comparison is by code point, as in Python.
-/


inductive Json where
  | null
  | jbool (b : Bool)
  | num (n : Int)
  | str (s : String)
  | arr (elems : List Json)
  | obj (fields : List (String × Json))

abbrev Dict := List (String × Json)

/-- Extract a string payload from a `Json` value, if it is one. -/
def jStr? : Json → Option String
  | .str s => some s
  | _ => none

/-- Model of Python `d.get(k, default)` restricted to string values: returns
the stored string when the key maps to one, and the default otherwise.
(The indexer only ever feeds string-typed fields into this pattern; on a
non-string value the Python code would raise, a path none of the verified
claims exercise.) -/
def getStrD (d : Dict) (k : String) (dflt : String) : String :=
  match d.lookup k with
  | some (.str s) => s
  | _ => dflt

/-- Model of Python `str.lower()` (ASCII case folding, which covers every
string the indexer's configuration and tests use). -/
def lowerStr (s : String) : String := String.mk (s.data.map Char.toLower)

/-- Model of Python `str.strip()`: drop leading and trailing whitespace. -/
def stripStr (s : String) : String :=
  String.mk (((s.data.dropWhile Char.isWhitespace).reverse.dropWhile Char.isWhitespace).reverse)

/-- Code-point comparison of strings as character lists, as Python's `<`
on strings: strict lexicographic order. -/
def strListLt : List Char → List Char → Bool
  | [], [] => false
  | [], _ :: _ => true
  | _ :: _, [] => false
  | a :: as, b :: bs =>
      if a.toNat < b.toNat then true
      else if a.toNat = b.toNat then strListLt as bs
      else false

/-- Python `a <= b` on strings: not `b < a`. -/
def pyStrLe (a b : String) : Bool := !(strListLt b.data a.data)

/-- The ascending order used to model Python's `sorted` on lists of tag
strings. -/
def tagRel (a b : String) : Prop := pyStrLe a b = true

instance : DecidableRel tagRel := fun a b => by unfold tagRel; infer_instance

/-- Model of Python `sorted(list(set(l)))` for a list of strings: the
ascending code-point enumeration of the distinct elements of `l`. -/
def pySortedSet (l : List String) : List String := List.insertionSort tagRel l.dedup

/-- Boolean test that `p` is an initial segment of `h`. -/
def isPrefixList : List Char → List Char → Bool
  | [], _ => true
  | _ :: _, [] => false
  | a :: ps, b :: hs => a == b && isPrefixList ps hs

/-- Occurrence of `pat` anywhere inside `hay` (at any position). -/
def containsSub (pat : List Char) : List Char → Bool
  | [] => isPrefixList pat []
  | c :: rest => isPrefixList pat (c :: rest) || containsSub pat rest

/-- Model of `re.compile(pat, re.IGNORECASE).search(title)` for a literal
pattern `pat` (no regex metacharacters, as in the shipped configuration):
case-insensitive substring search anywhere in the title, not a full match. -/
def ciSearch (pat title : String) : Bool :=
  containsSub (lowerStr pat).data (lowerStr title).data

/-- Fuel-indexed worker for Python `str.split(sep)` with a nonempty
separator; `acc` holds the current chunk reversed. -/
def splitListGo (sep : List Char) : Nat → List Char → List Char → List (List Char)
  | _, acc, [] => [acc.reverse]
  | 0, acc, l => [acc.reverse ++ l]
  | fuel + 1, acc, c :: rest =>
      if isPrefixList sep (c :: rest) then
        acc.reverse :: splitListGo sep fuel [] ((c :: rest).drop sep.length)
      else
        splitListGo sep fuel (c :: acc) rest

/-- Model of Python `s.split(sep)` for a nonempty separator. -/
def pySplit (s sep : String) : List String :=
  (splitListGo sep.data (s.data.length + 1) [] s.data).map String.mk

/-- Model of Python `s.split(sep, 1)`: split only at the first occurrence. -/
def pySplitOnce (s sep : String) : List String :=
  match pySplit s sep with
  | [] => []
  | [p] => [p]
  | p :: rest => [p, String.intercalate sep rest]

/-- The default category from `constants.py`; the source file literally
contains the mojibake code points U+221A U+00A9 in place of an e-acute. -/
def DEFAULT_CATEGORY : String := "Sans cat√©gorie"

/-- One compiled categorization rule: category name, the (literal) pattern
compiled with `re.IGNORECASE`, and extra tags. -/
structure CompiledPattern where
  name : String
  regexLit : String
  extraTags : List String

/-- The rule-scanning loop of `get_category_info`: first matching rule
wins; the default category with no tags if none matches. -/
def findCategory (pats : List CompiledPattern) (title : String) : String × List String :=
  match pats with
  | [] => (DEFAULT_CATEGORY, [])
  | p :: rest =>
      if ciSearch p.regexLit title then (p.name, p.extraTags)
      else findCategory rest title

/-- Model of `DataProcessor.get_category_info`: empty titles short-circuit to the
default category before any rule is evaluated. -/
def getCategoryInfo (pats : List CompiledPattern) (title : String) : String × List String :=
  if title = "" then (DEFAULT_CATEGORY, [])
  else findCategory pats title

/-- Model of `DataProcessor.normalize_tag`: falsy input passes through; otherwise
the first alias-table key equal to the tag case-insensitively rewrites it
to the canonical value, and an unmatched tag is returned unchanged. -/
def normalizeTag (mappings : List (String × String)) (tag : String) : String :=
  if tag = "" then tag
  else
    match mappings.find? (fun kv => lowerStr kv.1 == lowerStr tag) with
    | some kv => kv.2
    | none => tag

/-- Model of `DataProcessor.normalize_tags`: normalize each tag, deduplicate via a
set, and return the ascending sorted list. -/
def normalizeTags (mappings : List (String × String)) (tags : List String) : List String :=
  pySortedSet (tags.map (normalizeTag mappings))

/-- The required raw-record fields of `_validate_raw_show`. -/
def requiredFields : List String := ["key", "name", "slug", "url"]

/-- The missing-field computation of `_validate_raw_show`. -/
def missingFields (raw : Dict) : List String :=
  requiredFields.filter (fun f => (raw.lookup f).isNone)

/-- Model of `_normalize_text`: strip non-word characters (`\w` keeps alphanumerics
and underscore) and lowercase, with falsy input mapped to the empty
string. -/
def isWordChar (c : Char) : Bool := c.isAlphanum || c == '_'

def normalizeText (s : String) : String :=
  if s = "" then ""
  else lowerStr (String.mk (s.data.filter isWordChar))

/-- Tag-name extraction from the raw `tags` field of `process_show`: keep
only dict entries carrying a string `name`. -/
def extractTagNames (raw : Dict) : List String :=
  match raw.lookup "tags" with
  | some (.arr l) =>
      l.filterMap (fun t =>
        match t with
        | .obj fields =>
            match fields.lookup "name" with
            | some (.str s) => some s
            | _ => none
        | _ => none)
  | _ => []

/-- The `pictures` sub-dictionary of a raw record (`raw.get("pictures", {})`). -/
def picturesOf (raw : Dict) : Dict :=
  match raw.lookup "pictures" with
  | some (.obj o) => o
  | _ => []

/-- The per-URL part of `_extract_picture_key`: split on `"unsafe/"`, take
the chunk after the first occurrence, and drop its leading size segment. -/
def extractFromUrl (url : String) : Option String :=
  match pySplit url "unsafe/" with
  | _ :: suffix :: _ =>
      match pySplitOnce suffix "/" with
      | _ :: key :: _ => some key
      | _ => none
  | _ => none

/-- Model of `_extract_picture_key`: scan the picture URLs in size-preference order
and return the first extractable key, or the empty string. -/
def extractPictureKey (pictures : Dict) : String :=
  (((["large", "medium", "small", "thumbnail"].filterMap (fun k =>
      match pictures.lookup k with
      | some (.str url) => if url ≠ "" then extractFromUrl url else none
      | _ => none))).head?).getD ""

/-- The cause wrapped by a `ProcessingError` in `process_show`'s
`except (ValidationError, KeyError)` handler. -/
inductive ShowErrorCause where
  | validation (missing : List String)
  | keyError (key : String)

/-- The `ProcessingError` raised by `process_show`. -/
inductive ProcError where
  | processing (cause : ShowErrorCause)

/-- Model of `DataProcessor.process_show`: validate required fields, trim the
title, categorize, merge and normalize tags, build the output record, and
append the description only when it is materially different from the
title. -/
def processShow (pats : List CompiledPattern) (mappings : List (String × String))
    (raw : Dict) : Except ProcError Dict :=
  if missingFields raw ≠ [] then
    .error (.processing (.validation (missingFields raw)))
  else
    let title := stripStr (getStrD raw "name" "")
    let catInfo := getCategoryInfo pats title
    let allTags := normalizeTags mappings (extractTagNames raw ++ catInfo.2)
    let base : Dict :=
      [("name", .str title),
       ("slug", ((raw.lookup "slug").getD .null)),
       ("created_time", ((raw.lookup "created_time").getD (.str ""))),
       ("picture_key", .str (extractPictureKey (picturesOf raw))),
       ("tags", .arr (allTags.map Json.str)),
       ("category", .str catInfo.1),
       ("audio_length", ((raw.lookup "audio_length").getD (.num 0)))]
    let description := getStrD raw "description" ""
    if description ≠ "" ∧ normalizeText title ≠ normalizeText description then
      .ok (base ++ [("description", .str description)])
    else
      .ok base

/-- The incremental-update membership test of `fetch_shows`:
`show.get("key") in existing_ids`, where `existing_ids` is a set of
strings (a missing or non-string key is never a member). -/
def keyKnown (known : List String) (shw : Dict) : Bool :=
  match shw.lookup "key" with
  | some (.str k) => known.contains k
  | _ => false

/-- The limit test of `fetch_shows`:
`limit is not None and count >= limit`. -/
def limitHit : Option Nat → Nat → Bool
  | none, _ => false
  | some l, c => decide (l ≤ c)

/-- Result of iterating the items of one (or more) listing pages:
the yielded records, the updated running count, and whether the generator
returned early (limit reached or known key found). -/
structure PageResult where
  yielded : List Dict
  count : Nat
  stopped : Bool

/-- The inner item loop of `MixcloudFetcher.fetch_shows` over a list of
summary items: stop at the limit or at an already-known key, otherwise
yield the detail record for the item (`detail s = some full`), or the
summary item itself as a degraded fallback when the detail fetch fails
(`detail s = none`, the `except RequestException` branch). -/
def fetchPage (detail : Dict → Option Dict) (known : List String) (limit : Option Nat) :
    List Dict → Nat → PageResult
  | [], c => ⟨[], c, false⟩
  | s :: rest, c =>
      if limitHit limit c then ⟨[], c, true⟩
      else if keyKnown known s then ⟨[], c, true⟩
      else
        let r := fetchPage detail known limit rest (c + 1)
        ⟨(detail s).getD s :: r.yielded, r.count, r.stopped⟩

/-- Model of `MixcloudFetcher.fetch_shows` over a paginated catalog (the successive
`data` arrays of the listing pages): walk pages in order, stopping the
whole sequence as soon as the item loop returns early. The returned list
is the sequence of yielded raw records. -/
def fetchShows (detail : Dict → Option Dict) (known : List String) (limit : Option Nat) :
    List (List Dict) → Nat → List Dict
  | [], _ => []
  | pg :: pgs, c =>
      let r := fetchPage detail known limit pg c
      if r.stopped then r.yielded
      else r.yielded ++ fetchShows detail known limit pgs r.count

/-- The key-set derivation of `perform_fetch_and_index`
(`{show["key"] for show in existing_data}`): unguarded indexing that
raises `KeyError("key")` at the first record lacking the field. -/
def deriveKnownKeys : List Dict → Except String (List Json)
  | [] => .ok []
  | d :: rest =>
      match d.lookup "key" with
      | none => .error "key"
      | some v =>
          match deriveKnownKeys rest with
          | .error e => .error e
          | .ok ks => .ok (v :: ks)

/-- The fetch-mode processing loop of `perform_fetch_and_index`: process
each raw record, skipping (with a log line) any that fails with
`ProcessingError`, and collect the successes in order. -/
def processLoop (pats : List CompiledPattern) (mappings : List (String × String))
    (raws : List Dict) : List Dict :=
  raws.filterMap (fun r => (processShow pats mappings r).toOption)

/-- Python dict assignment `d[k] = v`: replace in place if the key is
present, else append the new entry at the end. -/
def dictSet (d : Dict) (k : String) (v : Json) : Dict :=
  if (d.lookup k).isSome then d.map (fun kv => if kv.1 = k then (k, v) else kv)
  else d ++ [(k, v)]

/-- Python equality `value == s` between a possibly-absent JSON value and
a string: true exactly when the value is present and is that string. -/
def pyEqStr : Option Json → String → Bool
  | some (.str t), s => t == s
  | _, _ => false

/-- The stored tag list of a record, as strings
(`show.get("tags", [])`; the verified claims restrict attention to
well-formed records whose tags are all strings). -/
def tagStrs (d : Dict) : List String :=
  match d.lookup "tags" with
  | some (.arr l) => l.filterMap jStr?
  | _ => []

/-- The per-record body of `perform_local_update`: recompute category and
tags, mutate the record on a difference, and count one update per changed
field group (category, tags). -/
def updateShow (pats : List CompiledPattern) (mappings : List (String × String))
    (shw : Dict) : Dict × Nat :=
  let info := getCategoryInfo pats (getStrD shw "name" "")
  let step1 : Dict × Nat :=
    if pyEqStr (shw.lookup "category") info.1 then (shw, 0)
    else (dictSet shw "category" (.str info.1), 1)
  let currentTags := tagStrs step1.1
  let newTags := normalizeTags mappings (currentTags ++ info.2)
  if newTags = pySortedSet currentTags then step1
  else (dictSet step1.1 "tags" (.arr (newTags.map Json.str)), step1.2 + 1)

/-- Model of `perform_local_update` on an already-loaded index: returns the updated
records and whether `save_index` is invoked (it is invoked exactly when
`updated_count > 0`; an empty index returns early without writing). -/
def performLocalUpdate (pats : List CompiledPattern) (mappings : List (String × String))
    (data : List Dict) : List Dict × Bool :=
  if data.isEmpty then (data, false)
  else
    let results := data.map (updateShow pats mappings)
    (results.map Prod.fst, decide (0 < (results.map Prod.snd).sum))

/-- The sort key of `save_index`: `x.get("created_time", "")`. -/
def createdTimeKey (d : Dict) : String := getStrD d "created_time" ""

/-- The descending-by-creation-time order of `save_index`
(`sorted(key=..., reverse=True)`). -/
def saveRel (a b : Dict) : Prop := pyStrLe (createdTimeKey b) (createdTimeKey a) = true

instance : DecidableRel saveRel := fun a b => by unfold saveRel; infer_instance

/-- The record ordering `save_index` persists: the input records stably
sorted by creation timestamp, newest first. -/
def saveSorted (data : List Dict) : List Dict := List.insertionSort saveRel data

/-- Fault-injected model of the file write performed by `save_index`:
`json.dump` streams the serialized chunks into the (already truncated)
file; `some n` as budget means an `IOError` is raised after `n` chunks
were written, `none` means the write completes. -/
def writeChunks : List String → Option Nat → String × Bool
  | [], _ => ("", true)
  | _ :: _, some 0 => ("", false)
  | chunk :: rest, some (n + 1) =>
      let r := writeChunks rest (some n)
      (chunk ++ r.1, r.2)
  | chunk :: rest, none =>
      let r := writeChunks rest none
      (chunk ++ r.1, r.2)

/-- File-system effect of `save_index` under fault injection. `previous`
is the destination file's prior content (`none` if absent); `chunks` is
the serialized new index as the write stream produces it; `canOpen` is
whether `path.open("w")` succeeds (opening with mode `"w"` truncates the
file before any data is written); `budget` injects an `IOError` during
the streamed write. Returns the resulting file content and whether the
write completed without an `IOError`. -/
def saveIndexWrite (previous : Option String) (chunks : List String)
    (canOpen : Bool) (budget : Option Nat) : Option String × Bool :=
  if canOpen then
    let r := writeChunks chunks budget
    (some r.1, r.2)
  else (previous, false)

/-- Well-formedness of the creation-time field: absent, or a string (on a
non-string value Python's `sorted` would raise `TypeError`). -/
def CreatedWF (d : Dict) : Prop :=
  d.lookup "created_time" = none ∨ ∃ s, d.lookup "created_time" = some (Json.str s)

/-- A record that has a (non-empty) creation timestamp. -/
def hasTimestamp (d : Dict) : Prop :=
  ∃ s, d.lookup "created_time" = some (Json.str s) ∧ s ≠ ""

/-- A record with no creation timestamp: the sort key falls back to the
empty string. -/
def missingTimestamp (d : Dict) : Prop := d.lookup "created_time" = none

/-- Well-formedness of the stored tag list: absent, or an array whose
elements are all strings (on anything else the Python update loop would
raise before comparing). -/
def TagsWF (d : Dict) : Prop :=
  d.lookup "tags" = none ∨
  ∃ ts : List String, d.lookup "tags" = some (.arr (ts.map Json.str))

/-- Concatenation of the serialized chunks: the full new file content. -/
def strConcat : List String → String
  | [] => ""
  | c :: rest => c ++ strConcat rest

/-! ### Properties -/

theorem charToNat_inj {a b : Char} (h : a.toNat = b.toNat) : a = b :=
  Char.eq_of_val_eq (UInt32.eq_of_val_eq (Fin.val_injective h))

theorem strListLt_irrefl (l : List Char) : strListLt l l = false := by
  induction l with
  | nil => rfl
  | cons a t ih => simp [strListLt, ih]

theorem strListLt_trans (a : List Char) :
    ∀ b c, strListLt a b = true → strListLt b c = true → strListLt a c = true := by
  induction a with
  | nil =>
    intro b c h1 h2
    cases b with
    | nil => simp [strListLt] at h1
    | cons y ys =>
      cases c with
      | nil => simp [strListLt] at h2
      | cons z zs => simp [strListLt]
  | cons x xs ih =>
    intro b c h1 h2
    cases b with
    | nil => simp [strListLt] at h1
    | cons y ys =>
      cases c with
      | nil => simp [strListLt] at h2
      | cons z zs =>
        simp only [strListLt] at h1 h2 ⊢
        split at h1
        · rename_i hxy
          split at h2
          · rename_i hyz
            rw [if_pos (by omega)]
          · rename_i hyz
            split at h2
            · rename_i hyez
              rw [if_pos (by omega)]
            · exact absurd h2 (by simp)
        · rename_i hxy
          split at h1
          · rename_i hxey
            split at h2
            · rename_i hyz
              rw [if_pos (by omega)]
            · rename_i hyz
              split at h2
              · rename_i hyez
                rw [if_neg (by omega), if_pos (by omega)]
                exact ih ys zs h1 h2
              · exact absurd h2 (by simp)
          · exact absurd h1 (by simp)

theorem strListLt_connex (a : List Char) :
    ∀ b, strListLt a b = false → strListLt b a = false → a = b := by
  induction a with
  | nil =>
    intro b h1 _
    cases b with
    | nil => rfl
    | cons y ys => simp [strListLt] at h1
  | cons x xs ih =>
    intro b h1 h2
    cases b with
    | nil => simp [strListLt] at h2
    | cons y ys =>
      simp only [strListLt] at h1 h2
      split at h1
      · exact absurd h1 (by simp)
      · rename_i hxy
        split at h1
        · rename_i hxey
          have hx : x = y := charToNat_inj hxey
          subst hx
          rw [if_neg (by omega), if_pos rfl] at h2
          rw [ih ys h1 h2]
        · rename_i hxey
          rw [if_pos (by omega)] at h2
          exact absurd h2 (by simp)

theorem strListLt_asymm {a b : List Char} (h : strListLt a b = true) :
    strListLt b a = false := by
  cases hres : strListLt b a
  · rfl
  · have := strListLt_trans a b a h hres
    rw [strListLt_irrefl] at this
    exact absurd this (by simp)

theorem pyStrLe_total (a b : String) : pyStrLe a b = true ∨ pyStrLe b a = true := by
  unfold pyStrLe
  cases h : strListLt b.data a.data
  · left; rfl
  · right; rw [strListLt_asymm h]; rfl

theorem pyStrLe_trans {a b c : String}
    (h1 : pyStrLe a b = true) (h2 : pyStrLe b c = true) : pyStrLe a c = true := by
  unfold pyStrLe at h1 h2 ⊢
  rw [Bool.not_eq_true'] at h1 h2 ⊢
  cases hca : strListLt c.data a.data
  · rfl
  · cases hbc : strListLt b.data c.data
    · have hcb : c.data = b.data := strListLt_connex c.data b.data h2 hbc
      rw [hcb] at hca
      exact absurd hca (by rw [h1]; simp)
    · have := strListLt_trans b.data c.data a.data hbc hca
      exact absurd this (by rw [h1]; simp)

theorem pyStrLe_empty {s : String} (h : pyStrLe s "" = true) : s = "" := by
  cases s with
  | mk data =>
    cases data with
    | nil => rfl
    | cons c t =>
      unfold pyStrLe at h
      simp [strListLt] at h

theorem lookup_key_base (a b c d e f g : Json) :
    List.lookup "key" [("name", a), ("slug", b), ("created_time", c),
      ("picture_key", d), ("tags", e), ("category", f), ("audio_length", g)] = none := rfl

theorem lookup_key_base_app (a b c d e f g v : Json) :
    List.lookup "key" ([("name", a), ("slug", b), ("created_time", c),
      ("picture_key", d), ("tags", e), ("category", f), ("audio_length", g)] ++
      [("description", v)]) = none := rfl

theorem lookup_desc_base (a b c d e f g : Json) :
    List.lookup "description" [("name", a), ("slug", b), ("created_time", c),
      ("picture_key", d), ("tags", e), ("category", f), ("audio_length", g)] = none := rfl

theorem lookup_desc_base_app (a b c d e f g v : Json) :
    List.lookup "description" ([("name", a), ("slug", b), ("created_time", c),
      ("picture_key", d), ("tags", e), ("category", f), ("audio_length", g)] ++
      [("description", v)]) = some v := rfl

theorem processShow_lookup_key (pats : List CompiledPattern)
    (mappings : List (String × String)) (raw out : Dict)
    (h : processShow pats mappings raw = Except.ok out) : out.lookup "key" = none := by
  simp only [processShow] at h
  split at h
  · exact absurd h (by simp)
  · split at h
    · injection h with h2
      subst h2
      exact lookup_key_base_app _ _ _ _ _ _ _ _
    · injection h with h2
      subst h2
      exact lookup_key_base _ _ _ _ _ _ _

/-- C1: `process_show` never includes the raw record's opaque `key` field
in the record it returns, while fetch mode derives the incremental-update
key set by unguarded `show["key"]` indexing over the loaded index; hence
for every non-empty index made of `process_show` outputs, the key-set
derivation of `perform_fetch_and_index` raises `KeyError` (the error
branch is reachable) instead of starting an incremental fetch. -/
theorem claim_C1_processed_records_lack_key :
    (∀ pats mappings raw out, processShow pats mappings raw = Except.ok out →
        out.lookup "key" = none) ∧
    (∀ index : List Dict, index ≠ [] →
        (∀ d ∈ index, ∃ pats mappings raw, processShow pats mappings raw = Except.ok d) →
        deriveKnownKeys index = .error "key") := by
  refine ⟨processShow_lookup_key, ?_⟩
  intro index hne hall
  cases index with
  | nil => exact absurd rfl hne
  | cons d rest =>
      obtain ⟨pats, mappings, raw, hd⟩ := hall d (List.mem_cons_self d rest)
      have hkey := processShow_lookup_key pats mappings raw d hd
      unfold deriveKnownKeys
      rw [hkey]

theorem claim_C1_witness :
    deriveKnownKeys [[("name", Json.str "T"), ("slug", Json.str "t"),
      ("created_time", Json.str ""), ("picture_key", Json.str ""),
      ("tags", Json.arr []), ("category", Json.str DEFAULT_CATEGORY),
      ("audio_length", Json.num 0)]] = .error "key" := by
  apply claim_C1_processed_records_lack_key.2
  · simp
  · intro d hd
    rw [List.mem_singleton] at hd
    subst hd
    exact ⟨[], [], [("key", Json.str "/show1/"), ("name", Json.str "T"),
      ("slug", Json.str "t"), ("url", Json.str "u")], rfl⟩

/-- C9: a raw record missing any of the fields key, name, slug, url fails
`process_show` with a `ProcessingError` wrapping a `ValidationError`, and
the fetch-mode loop skips it (the run continues), so it contributes
nothing to the output index. -/
theorem claim_C9_missing_required_field (pats : List CompiledPattern)
    (mappings : List (String × String)) (raw : Dict)
    (h : ∃ f ∈ requiredFields, raw.lookup f = none) :
    processShow pats mappings raw =
      .error (.processing (.validation (missingFields raw))) ∧
    missingFields raw ≠ [] ∧
    ∀ pre post : List Dict,
      processLoop pats mappings (pre ++ raw :: post) =
        processLoop pats mappings (pre ++ post) := by
  obtain ⟨f, hf, hnone⟩ := h
  have hmem : f ∈ missingFields raw := by
    unfold missingFields
    rw [List.mem_filter]
    exact ⟨hf, by rw [hnone]; rfl⟩
  have hne : missingFields raw ≠ [] := by
    intro hEmpty
    rw [hEmpty] at hmem
    exact absurd hmem (List.not_mem_nil f)
  have herr : processShow pats mappings raw =
      .error (.processing (.validation (missingFields raw))) := by
    unfold processShow
    rw [if_pos hne]
  refine ⟨herr, hne, ?_⟩
  intro pre post
  unfold processLoop
  simp [List.filterMap_append, List.filterMap_cons, herr, Except.toOption]

theorem claim_C9_witness :
    processShow [] [] [("key", Json.str "k"), ("name", Json.str "n"), ("url", Json.str "u")] =
      .error (.processing (.validation ["slug"])) ∧
    processLoop [] [] [[("key", Json.str "k"), ("name", Json.str "n"), ("url", Json.str "u")]] = [] := by
  have h := claim_C9_missing_required_field [] []
    [("key", Json.str "k"), ("name", Json.str "n"), ("url", Json.str "u")]
    ⟨"slug", by decide, rfl⟩
  refine ⟨h.1, ?_⟩
  have h2 := h.2.2 [] []
  simpa using h2

/-- C10: the output of `process_show` carries a `description` field only
when the description's normalized (word-characters, lowercased) form
differs from the same normalization of the trimmed title; when the two
normalized forms are equal the output has no `description` field. -/
theorem claim_C10_description_only_if_different (pats : List CompiledPattern)
    (mappings : List (String × String)) (raw out : Dict)
    (h : processShow pats mappings raw = Except.ok out) :
    ((out.lookup "description").isSome = true →
        normalizeText (getStrD raw "description" "") ≠
          normalizeText (stripStr (getStrD raw "name" ""))) ∧
    (normalizeText (stripStr (getStrD raw "name" "")) =
        normalizeText (getStrD raw "description" "") →
      out.lookup "description" = none) := by
  simp only [processShow] at h
  split at h
  · exact absurd h (by simp)
  · split at h
    · rename_i hcond
      injection h with h2
      subst h2
      constructor
      · intro _
        exact fun heq => hcond.2 heq.symm
      · intro heq
        exact absurd heq hcond.2
    · rename_i hcond
      injection h with h2
      subst h2
      constructor
      · intro hsome
        rw [lookup_desc_base] at hsome
        exact absurd hsome (by simp)
      · intro _
        exact lookup_desc_base _ _ _ _ _ _ _

theorem claim_C10_witness :
    List.lookup "description" [("name", Json.str "My Show"), ("slug", Json.str "s"),
      ("created_time", Json.str ""), ("picture_key", Json.str ""),
      ("tags", Json.arr []), ("category", Json.str DEFAULT_CATEGORY),
      ("audio_length", Json.num 0)] = none :=
  (claim_C10_description_only_if_different [] []
    [("key", Json.str "k"), ("name", Json.str "My Show"), ("slug", Json.str "s"),
     ("url", Json.str "u"), ("description", Json.str "my show!")]
    [("name", Json.str "My Show"), ("slug", Json.str "s"),
     ("created_time", Json.str ""), ("picture_key", Json.str ""),
     ("tags", Json.arr []), ("category", Json.str DEFAULT_CATEGORY),
     ("audio_length", Json.num 0)] rfl).2 rfl

theorem isPrefixList_iff (p : List Char) :
    ∀ h, isPrefixList p h = true ↔ ∃ t, h = p ++ t := by
  induction p with
  | nil =>
    intro h
    simp [isPrefixList]
  | cons a ps ih =>
    intro h
    cases h with
    | nil =>
      simp [isPrefixList]
    | cons b hs =>
      simp only [isPrefixList, Bool.and_eq_true, beq_iff_eq, ih]
      constructor
      · rintro ⟨hab, t, ht⟩
        exact ⟨t, by rw [hab, ht]; rfl⟩
      · rintro ⟨t, ht⟩
        rw [List.cons_append] at ht
        injection ht with h1 h2
        exact ⟨h1.symm, t, h2⟩

theorem containsSub_iff (p : List Char) :
    ∀ h, containsSub p h = true ↔ ∃ pre post, h = pre ++ p ++ post := by
  intro h
  induction h with
  | nil =>
    simp only [containsSub, isPrefixList_iff]
    constructor
    · rintro ⟨t, ht⟩
      exact ⟨[], t, ht⟩
    · rintro ⟨pre, post, hp⟩
      rw [List.append_assoc] at hp
      cases pre with
      | nil => exact ⟨post, hp⟩
      | cons x xs => exact absurd hp (by simp)
  | cons c rest ih =>
    simp only [containsSub, Bool.or_eq_true, isPrefixList_iff, ih]
    constructor
    · rintro (⟨t, ht⟩ | ⟨pre, post, hp⟩)
      · exact ⟨[], t, by simpa using ht⟩
      · exact ⟨c :: pre, post, by rw [hp]; rfl⟩
    · rintro ⟨pre, post, hp⟩
      cases pre with
      | nil =>
        left
        exact ⟨post, by simpa using hp⟩
      | cons x xs =>
        right
        rw [List.cons_append, List.cons_append] at hp
        injection hp with h1 h2
        exact ⟨xs, post, by rw [h2]⟩

theorem findCategory_eq_find? (pats : List CompiledPattern) (title : String) :
    findCategory pats title =
      match pats.find? (fun p => ciSearch p.regexLit title) with
      | some p => (p.name, p.extraTags)
      | none => (DEFAULT_CATEGORY, []) := by
  induction pats with
  | nil => rfl
  | cons p ps ih =>
    simp only [findCategory, List.find?_cons]
    cases h : ciSearch p.regexLit title
    · rw [if_neg (by simp [h])]
      rw [ih]
    · rw [if_pos rfl]

/-- C3: category lookup returns the first configured rule whose pattern is
found anywhere in the title by case-insensitive search (not a full
match); an empty title short-circuits to the default category and no
extra tags for every rule list, and if no rule matches the default
category with empty tags is returned. -/
theorem claim_C3_first_match_wins (pats : List CompiledPattern) (title : String) :
    getCategoryInfo pats "" = (DEFAULT_CATEGORY, []) ∧
    (title ≠ "" →
      getCategoryInfo pats title =
        match pats.find? (fun p => ciSearch p.regexLit title) with
        | some p => (p.name, p.extraTags)
        | none => (DEFAULT_CATEGORY, [])) ∧
    (∀ pat t : String, ciSearch pat t = true ↔
      ∃ pre post, (lowerStr t).data = pre ++ (lowerStr pat).data ++ post) := by
  refine ⟨rfl, ?_, ?_⟩
  · intro hne
    unfold getCategoryInfo
    rw [if_neg hne]
    exact findCategory_eq_find? pats title
  · intro pat t
    exact containsSub_iff (lowerStr pat).data (lowerStr t).data

theorem claim_C3_witness :
    getCategoryInfo
      [⟨"Punk", "punk", ["genre:punk"]⟩, ⟨"Rock", "rock", []⟩]
      "Live Punk Session" = ("Punk", ["genre:punk"]) := by
  have h := (claim_C3_first_match_wins
    [⟨"Punk", "punk", ["genre:punk"]⟩, ⟨"Rock", "rock", []⟩]
    "Live Punk Session").2.1 (by decide)
  rw [h]
  rfl

theorem normalizeTag_cases (m : List (String × String)) (t : String) :
    normalizeTag m t = t ∨ ∃ kv ∈ m, normalizeTag m t = kv.2 := by
  unfold normalizeTag
  split
  · exact Or.inl rfl
  · cases hfind : List.find? (fun kv => lowerStr kv.1 == lowerStr t) m with
    | none => simp [hfind]
    | some kv =>
      right
      exact ⟨kv, List.mem_of_find?_eq_some hfind, by simp [hfind]⟩

theorem normalizeTag_fixed_of_mem (m : List (String × String))
    (hfix : ∀ kv ∈ m, normalizeTag m kv.2 = kv.2)
    {x : String} (hx : ∃ t, normalizeTag m t = x) : normalizeTag m x = x := by
  obtain ⟨t, rfl⟩ := hx
  rcases normalizeTag_cases m t with h | ⟨kv, hkv, h⟩
  · rw [h]
    exact h
  · rw [h]
    exact hfix kv hkv

theorem mem_pySortedSet {x : String} {l : List String}
    (hx : x ∈ pySortedSet l) : x ∈ l := by
  unfold pySortedSet at hx
  have := (List.perm_insertionSort tagRel l.dedup).mem_iff.mp hx
  exact List.mem_dedup.mp this

theorem pySortedSet_nodup (l : List String) : (pySortedSet l).Nodup :=
  (List.perm_insertionSort tagRel l.dedup).nodup_iff.mpr (List.nodup_dedup l)

theorem pySortedSet_sorted (l : List String) : List.Sorted tagRel (pySortedSet l) := by
  haveI : IsTotal String tagRel := ⟨fun a b => pyStrLe_total a b⟩
  haveI : IsTrans String tagRel := ⟨fun _ _ _ h1 h2 => pyStrLe_trans h1 h2⟩
  exact List.sorted_insertionSort tagRel l.dedup

theorem pySortedSet_idem (l : List String) :
    pySortedSet (pySortedSet l) = pySortedSet l := by
  have h1 : (pySortedSet l).dedup = pySortedSet l :=
    List.dedup_eq_self.mpr (pySortedSet_nodup l)
  show List.insertionSort tagRel (pySortedSet l).dedup = pySortedSet l
  rw [h1]
  exact List.Sorted.insertionSort_eq (pySortedSet_sorted l)

/-- C8 counterexample: with the alias table mapping `a` to `b` and `b` to
`c`, `normalize_tags` rewrites the already-normalized list `["b"]` to
`["c"]`, so it is not idempotent for every tag-alias table. -/
theorem claim_C8_counterexample :
    normalizeTags [("a", "b"), ("b", "c")]
        (normalizeTags [("a", "b"), ("b", "c")] ["a"]) ≠
      normalizeTags [("a", "b"), ("b", "c")] ["a"] := by decide

/-- C8 (amended): `normalize_tags` is idempotent whenever every canonical
value of the tag-alias table is itself a fixed point of `normalize_tag`
(as is the case for the shipped mapping); for alias tables whose
canonical values are themselves aliased further, a second pass rewrites
them again. -/
theorem claim_C8_amended_idempotent (m : List (String × String)) (tags : List String)
    (hfix : ∀ kv ∈ m, normalizeTag m kv.2 = kv.2) :
    normalizeTags m (normalizeTags m tags) = normalizeTags m tags := by
  have hmap : (pySortedSet (tags.map (normalizeTag m))).map (normalizeTag m) =
      pySortedSet (tags.map (normalizeTag m)) := by
    have hfixed : ∀ x ∈ pySortedSet (tags.map (normalizeTag m)),
        normalizeTag m x = x := by
      intro x hx
      obtain ⟨t, _, ht⟩ := List.mem_map.mp (mem_pySortedSet hx)
      exact normalizeTag_fixed_of_mem m hfix ⟨t, ht⟩
    calc (pySortedSet (tags.map (normalizeTag m))).map (normalizeTag m)
        = (pySortedSet (tags.map (normalizeTag m))).map id :=
          List.map_congr_left hfixed
      _ = pySortedSet (tags.map (normalizeTag m)) := List.map_id _
  show pySortedSet ((pySortedSet (tags.map (normalizeTag m))).map (normalizeTag m)) =
      pySortedSet (tags.map (normalizeTag m))
  rw [hmap]
  exact pySortedSet_idem _

theorem claim_C8_witness :
    normalizeTags [("hiphop", "Hip-Hop")]
        (normalizeTags [("hiphop", "Hip-Hop")] ["HipHop", "Jazz", "hiphop"]) =
      normalizeTags [("hiphop", "Hip-Hop")] ["HipHop", "Jazz", "hiphop"] := by
  apply claim_C8_amended_idempotent
  intro kv hkv
  rw [List.mem_singleton] at hkv
  subst hkv
  decide

/-- C6: `save_index` writes the records ordered by creation timestamp
descending (a permutation of the input sorted by the descending key
order), and every record missing its creation timestamp is placed after
all records carrying a timestamp. -/
theorem claim_C6_sorted_desc_missing_last (data : List Dict)
    (_hwf : ∀ d ∈ data, CreatedWF d) :
    (saveSorted data).Perm data ∧
    List.Sorted saveRel (saveSorted data) ∧
    ∀ (i j : Fin (saveSorted data).length),
      hasTimestamp ((saveSorted data).get i) →
      missingTimestamp ((saveSorted data).get j) → i < j := by
  haveI : IsTotal Dict saveRel :=
    ⟨fun a b => pyStrLe_total (createdTimeKey b) (createdTimeKey a)⟩
  haveI : IsTrans Dict saveRel := ⟨fun _ _ _ h1 h2 => pyStrLe_trans h2 h1⟩
  have hsorted : List.Sorted saveRel (saveSorted data) :=
    List.sorted_insertionSort saveRel data
  refine ⟨List.perm_insertionSort saveRel data, hsorted, ?_⟩
  intro i j hi hj
  rcases lt_trichotomy i j with h | h | h
  · exact h
  · exfalso
    obtain ⟨s, hs, hne⟩ := hi
    rw [h, hj] at hs
    exact Option.noConfusion hs
  · exfalso
    obtain ⟨s, hs, hne⟩ := hi
    have hki : createdTimeKey ((saveSorted data).get i) = s := by
      unfold createdTimeKey getStrD
      rw [hs]
    have hkj : createdTimeKey ((saveSorted data).get j) = "" := by
      unfold createdTimeKey getStrD
      rw [hj]
    have hrel := hsorted.rel_get_of_lt h
    unfold saveRel at hrel
    rw [hki, hkj] at hrel
    exact hne (pyStrLe_empty hrel)

theorem claim_C6_witness :
    List.Sorted saveRel (saveSorted
      [[("created_time", Json.str "2020")], [], [("created_time", Json.str "2021")]]) :=
  (claim_C6_sorted_desc_missing_last
    [[("created_time", Json.str "2020")], [], [("created_time", Json.str "2021")]]
    (by
      intro d hd
      simp only [List.mem_cons, List.not_mem_nil, or_false] at hd
      rcases hd with rfl | rfl | rfl
      · exact Or.inr ⟨"2020", rfl⟩
      · exact Or.inl rfl
      · exact Or.inr ⟨"2021", rfl⟩)).2.1

/-- C7: in local-recategorize mode, if every stored record's derived
category equals its stored category and the normalized merged tag list
equals the sorted deduplication of its stored tag list, then no record is
mutated, the update count stays zero, and `save_index` is never invoked:
the index file is left unchanged. -/
theorem claim_C7_no_change_no_write (pats : List CompiledPattern)
    (mappings : List (String × String)) (data : List Dict)
    (_hwfT : ∀ d ∈ data, TagsWF d)
    (hcat : ∀ d ∈ data,
      pyEqStr (d.lookup "category") (getCategoryInfo pats (getStrD d "name" "")).1 = true)
    (htags : ∀ d ∈ data,
      normalizeTags mappings (tagStrs d ++ (getCategoryInfo pats (getStrD d "name" "")).2) =
        pySortedSet (tagStrs d)) :
    performLocalUpdate pats mappings data = (data, false) := by
  have hupd : ∀ d ∈ data, updateShow pats mappings d = (d, 0) := by
    intro d hd
    simp [updateShow, hcat d hd, htags d hd]
  unfold performLocalUpdate
  split
  · rfl
  · have hmap : data.map (updateShow pats mappings) = data.map (fun d => (d, 0)) :=
      List.map_congr_left hupd
    rw [hmap]
    have hz : ∀ l : List Dict, (l.map (fun _ => (0 : Nat))).sum = 0 := by
      intro l
      induction l with
      | nil => rfl
      | cons a t ih => simp [ih]
    simp [List.map_map, Function.comp_def, hz]

theorem claim_C7_witness :
    performLocalUpdate [] []
      [[("name", Json.str "A"), ("category", Json.str DEFAULT_CATEGORY),
        ("tags", Json.arr [])]] =
      ([[("name", Json.str "A"), ("category", Json.str DEFAULT_CATEGORY),
        ("tags", Json.arr [])]], false) := by
  apply claim_C7_no_change_no_write
  · intro d hd
    rw [List.mem_singleton] at hd
    subst hd
    exact Or.inr ⟨[], rfl⟩
  · intro d hd
    rw [List.mem_singleton] at hd
    subst hd
    decide
  · intro d hd
    rw [List.mem_singleton] at hd
    subst hd
    decide

theorem fetchPage_append (detail : Dict → Option Dict) (known : List String)
    (limit : Option Nat) (ys : List Dict) :
    ∀ (xs : List Dict) (c : Nat),
      fetchPage detail known limit (xs ++ ys) c =
        (let r := fetchPage detail known limit xs c
         if r.stopped then r
         else ⟨r.yielded ++ (fetchPage detail known limit ys r.count).yielded,
               (fetchPage detail known limit ys r.count).count,
               (fetchPage detail known limit ys r.count).stopped⟩) := by
  intro xs
  induction xs with
  | nil =>
    intro c
    simp [fetchPage]
  | cons s rest ih =>
    intro c
    simp only [List.cons_append, fetchPage, List.append_eq]
    by_cases hl : limitHit limit c = true
    · simp [hl]
    · rw [Bool.not_eq_true] at hl
      by_cases hk : keyKnown known s = true
      · simp [hl, hk]
      · rw [Bool.not_eq_true] at hk
        simp only [hl, hk, Bool.false_eq_true, if_false]
        rw [ih (c + 1)]
        by_cases hst : (fetchPage detail known limit rest (c + 1)).stopped = true
        · simp [hst]
        · rw [Bool.not_eq_true] at hst
          simp [hst]

theorem fetchShows_eq_flatten (detail : Dict → Option Dict) (known : List String)
    (limit : Option Nat) :
    ∀ (pages : List (List Dict)) (c : Nat),
      fetchShows detail known limit pages c =
        (fetchPage detail known limit pages.flatten c).yielded := by
  intro pages
  induction pages with
  | nil =>
    intro c
    simp [fetchShows, fetchPage]
  | cons pg pgs ih =>
    intro c
    simp only [fetchShows, List.flatten_cons]
    rw [fetchPage_append]
    by_cases hst : (fetchPage detail known limit pg c).stopped = true
    · simp [hst]
    · rw [Bool.not_eq_true] at hst
      simp only [hst, Bool.false_eq_true, if_false]
      rw [ih]

theorem fetchPage_yield_prefix (detail : Dict → Option Dict) (known : List String)
    (limit : Option Nat) :
    ∀ (xs : List Dict) (c : Nat),
      (fetchPage detail known limit xs c).yielded <+:
        (xs.takeWhile (fun s => !(keyKnown known s))).map (fun s => (detail s).getD s) := by
  intro xs
  induction xs with
  | nil =>
    intro c
    exact ⟨[], rfl⟩
  | cons s rest ih =>
    intro c
    simp only [fetchPage]
    by_cases hl : limitHit limit c = true
    · simp only [hl, if_true]
      exact ⟨_, rfl⟩
    · rw [Bool.not_eq_true] at hl
      by_cases hk : keyKnown known s = true
      · simp only [hl, hk, Bool.false_eq_true, if_false, if_true]
        exact ⟨_, rfl⟩
      · rw [Bool.not_eq_true] at hk
        simp only [hl, hk, Bool.false_eq_true, if_false]
        have htw : (s :: rest).takeWhile (fun x => !(keyKnown known x)) =
            s :: rest.takeWhile (fun x => !(keyKnown known x)) := by
          simp [List.takeWhile_cons, hk]
        rw [htw, List.map_cons]
        obtain ⟨t, ht⟩ := ih (c + 1)
        exact ⟨t, by rw [List.cons_append, ht]⟩

theorem takeWhile_append_break {α : Type} (p : α → Bool) (s : α) (l₂ : List α)
    (hs : p s = false) :
    ∀ l₁ : List α, (l₁ ++ s :: l₂).takeWhile p <+: l₁ := by
  intro l₁
  induction l₁ with
  | nil =>
    rw [List.nil_append, List.takeWhile_cons, hs]
    exact ⟨[], rfl⟩
  | cons a t ih =>
    rw [List.cons_append, List.takeWhile_cons]
    cases hpa : p a
    · simp only [Bool.false_eq_true, if_false]
      exact ⟨a :: t, rfl⟩
    · simp only [if_true]
      obtain ⟨u, hu⟩ := ih
      exact ⟨u, by rw [List.cons_append, hu]⟩

/-- C2: on any paginated catalog, as soon as an item carries a key in the
(non-empty) known-key set, `fetch_shows` yields nothing from that item on:
everything yielded comes from the catalog segment strictly before the
first such item, regardless of remaining items and pages. -/
theorem claim_C2_incremental_stop (detail : Dict → Option Dict) (known : List String)
    (limit : Option Nat) (pages : List (List Dict)) (l₁ : List Dict) (s : Dict)
    (l₂ : List Dict)
    (hjoin : pages.flatten = l₁ ++ s :: l₂)
    (hknown : keyKnown known s = true)
    (_hbefore : ∀ x ∈ l₁, keyKnown known x = false)
    (_hne : known ≠ []) :
    fetchShows detail known limit pages 0 <+:
      l₁.map (fun x => (detail x).getD x) := by
  rw [fetchShows_eq_flatten, hjoin]
  have h1 := fetchPage_yield_prefix detail known limit (l₁ ++ s :: l₂) 0
  have h2 : ((l₁ ++ s :: l₂).takeWhile (fun x => !(keyKnown known x))) <+: l₁ :=
    takeWhile_append_break _ s l₂ (by rw [hknown]; rfl) l₁
  obtain ⟨t1, ht1⟩ := h1
  obtain ⟨t2, ht2⟩ := h2
  refine ⟨t1 ++ t2.map (fun x => (detail x).getD x), ?_⟩
  rw [← List.append_assoc, ht1, ← List.map_append, ht2]

theorem claim_C2_witness :
    fetchShows (fun _ => none) ["k2"] none
      [[[("key", Json.str "k3")], [("key", Json.str "k2")]], [[("key", Json.str "k1")]]] 0 <+:
      [[("key", Json.str "k3")]].map
        (fun x => ((fun _ => (none : Option Dict)) x).getD x) := by
  apply claim_C2_incremental_stop (fun _ => none) ["k2"] none
    [[[("key", Json.str "k3")], [("key", Json.str "k2")]], [[("key", Json.str "k1")]]]
    [[("key", Json.str "k3")]] [("key", Json.str "k2")] [[("key", Json.str "k1")]]
  · rfl
  · rfl
  · intro x hx
    rw [List.mem_singleton] at hx
    subst hx
    rfl
  · simp

theorem fetchPage_clean (detail : Dict → Option Dict) (known : List String)
    (rest : List Dict) :
    ∀ (l : List Dict) (c : Nat), (∀ x ∈ l, keyKnown known x = false) →
      fetchPage detail known none (l ++ rest) c =
        ⟨l.map (fun x => (detail x).getD x) ++
           (fetchPage detail known none rest (c + l.length)).yielded,
         (fetchPage detail known none rest (c + l.length)).count,
         (fetchPage detail known none rest (c + l.length)).stopped⟩ := by
  intro l
  induction l with
  | nil =>
    intro c h
    simp [fetchPage]
  | cons s t ih =>
    intro c h
    have hk : keyKnown known s = false := h s (List.mem_cons_self s t)
    simp only [List.cons_append, fetchPage, limitHit, Bool.false_eq_true, if_false, hk,
      List.append_eq]
    rw [ih (c + 1) (fun x hx => h x (List.mem_cons_of_mem s hx))]
    have harith : c + 1 + t.length = c + (s :: t).length := by
      simp [List.length_cons]
      omega
    rw [harith]
    simp

/-- C5: an item whose detail fetch fails does not abort the fetch:
`fetch_shows` yields the summary item itself as a degraded fallback in
the item's catalog position and continues with the remaining items and
pages, rather than dropping the item or raising. -/
theorem claim_C5_detail_failure_fallback (detail : Dict → Option Dict)
    (known : List String) (pages : List (List Dict)) (l₁ : List Dict) (s : Dict)
    (l₂ : List Dict)
    (hjoin : pages.flatten = l₁ ++ s :: l₂)
    (hbefore : ∀ x ∈ l₁, keyKnown known x = false)
    (hs : keyKnown known s = false)
    (hfail : detail s = none) :
    fetchShows detail known none pages 0 =
      l₁.map (fun x => (detail x).getD x) ++
        s :: (fetchPage detail known none l₂ (l₁.length + 1)).yielded := by
  rw [fetchShows_eq_flatten, hjoin]
  rw [fetchPage_clean detail known (s :: l₂) l₁ 0 hbefore]
  simp only [fetchPage, limitHit, hs, Bool.false_eq_true, if_false, hfail, Option.getD_none]
  have harith : 0 + l₁.length + 1 = l₁.length + 1 := by omega
  rw [harith]

theorem claim_C5_witness :
    fetchShows (fun _ => none) [] none
      [[[("key", Json.str "kA")], [("key", Json.str "kB")]]] 0 =
      ([] : List Dict).map (fun x => ((fun _ => (none : Option Dict)) x).getD x) ++
        [("key", Json.str "kA")] ::
          (fetchPage (fun _ => none) [] none [[("key", Json.str "kB")]]
            (([] : List Dict).length + 1)).yielded :=
  claim_C5_detail_failure_fallback (fun _ => none) []
    [[[("key", Json.str "kA")], [("key", Json.str "kB")]]]
    [] [("key", Json.str "kA")] [[("key", Json.str "kB")]]
    rfl (by intro x hx; simp at hx) rfl rfl

theorem writeChunks_none_budget (chunks : List String) :
    writeChunks chunks none = (strConcat chunks, true) := by
  induction chunks with
  | nil => rfl
  | cons c rest ih => simp [writeChunks, strConcat, ih]

theorem writeChunks_success (chunks : List String) :
    ∀ budget, (writeChunks chunks budget).2 = true →
      (writeChunks chunks budget).1 = strConcat chunks := by
  induction chunks with
  | nil =>
    intro budget _
    cases budget with
    | none => rfl
    | some n => rfl
  | cons c rest ih =>
    intro budget h
    cases budget with
    | none =>
      rw [writeChunks_none_budget]
    | some n =>
      cases n with
      | zero => simp [writeChunks] at h
      | succ m =>
        simp only [writeChunks] at h ⊢
        rw [ih (some m) h]
        rfl

theorem writeChunks_truncated (chunks : List String) :
    ∀ n, (writeChunks chunks (some n)).2 = false →
      (writeChunks chunks (some n)).1 = strConcat (chunks.take n) := by
  induction chunks with
  | nil =>
    intro n h
    simp [writeChunks] at h
  | cons c rest ih =>
    intro n h
    cases n with
    | zero => rfl
    | succ m =>
      simp only [writeChunks] at h ⊢
      rw [List.take_succ_cons]
      show c ++ (writeChunks rest (some m)).1 = c ++ strConcat (rest.take m)
      rw [ih m h]

/-- C4 counterexample: injecting an I/O error after the first chunk of
the streamed write leaves the destination file holding a strict prefix of
the new serialization, which is neither the previous content nor the full
new content: the in-place truncate-then-write of `save_index` is not
all-or-nothing. -/
theorem claim_C4_counterexample :
    (saveIndexWrite (some "OLD") ["NE", "W1"] true (some 1)).2 = false ∧
    ¬((saveIndexWrite (some "OLD") ["NE", "W1"] true (some 1)).1 = some "OLD" ∨
      (saveIndexWrite (some "OLD") ["NE", "W1"] true (some 1)).1 =
        some (strConcat ["NE", "W1"])) := by decide

/-- C4 (amended): if the I/O error strikes before the destination file is
opened, the previously persisted index is left as-is, and a fault-free
write stores the full new serialization; but `save_index` opens the
destination with mode `"w"` (truncate) and streams into it, so an I/O
error during the write leaves a partial prefix of the new serialization
visible in the destination file — the write is not all-or-nothing. -/
theorem claim_C4_amended_write_behavior (previous : Option String)
    (chunks : List String) (canOpen : Bool) (budget : Option Nat) :
    (canOpen = false → saveIndexWrite previous chunks canOpen budget = (previous, false)) ∧
    ((saveIndexWrite previous chunks canOpen budget).2 = true →
      (saveIndexWrite previous chunks canOpen budget).1 = some (strConcat chunks)) ∧
    ((saveIndexWrite previous chunks canOpen budget).2 = false →
      (saveIndexWrite previous chunks canOpen budget).1 = previous ∨
      ∃ n, (saveIndexWrite previous chunks canOpen budget).1 =
        some (strConcat (chunks.take n))) := by
  cases canOpen with
  | false =>
    refine ⟨fun _ => rfl, ?_, fun _ => Or.inl rfl⟩
    intro h
    simp [saveIndexWrite] at h
  | true =>
    refine ⟨fun hfalse => absurd hfalse (by simp), ?_, ?_⟩
    · intro h
      simp only [saveIndexWrite, if_true] at h ⊢
      rw [writeChunks_success chunks budget h]
    · intro h
      right
      simp only [saveIndexWrite, if_true] at h ⊢
      cases budget with
      | none =>
        rw [writeChunks_none_budget] at h
        exact absurd h (by simp)
      | some n =>
        exact ⟨n, by rw [writeChunks_truncated chunks n h]⟩

theorem claim_C4_witness :
    ∃ n, (saveIndexWrite (some "OLD") ["NE", "W1"] true (some 1)).1 =
      some (strConcat (["NE", "W1"].take n)) := by
  have h := (claim_C4_amended_write_behavior (some "OLD") ["NE", "W1"] true (some 1)).2.2
    (by decide)
  rcases h with h | h
  · exact absurd h (by decide)
  · exact h
